import Mathlib

/-!
Verification development for the `CodeGraph` source-code indexing engine
(`src/code-context/src/code-graph.ts`, second revision of the class: the
Python-MVP indexer with `files` / `symbols` / `relations` store relations).

The TypeScript code is shallowly embedded:
* tree-sitter syntax nodes become the inductive `TSNode` (with a mutual
  `TSForest` for the child list);
* the mutable arrays `symbolRows` / `relations` and the scope stack of
  `traverseAndCollect` become an explicit `ExtractState` threaded through a
  mutual structural recursion (JS `Array.push` on the stack is `++ [x]` at the
  end of the list, `Array.pop` is `dropLast`, `arr[arr.length - 1]` on an
  empty array yields the string "undefined", as JS template interpolation of
  `undefined` would);
* the CozoDB store becomes `DBState`: three association lists with
  last-wins keyed upsert (`putRow` / `putRows`) modelling `:put`;
* `runCommand`, which throws when the engine reports failure, is modelled by
  an `UpsertOracle` saying which of the three upserts of one `processFile`
  call fail; a failed upsert applies nothing (the store applies a `:put`
  atomically per call);
* `getNetwork`'s Cytoscape-graph assembly becomes `getNetworkCore`, a pure
  function of the three row lists the fixed datalog queries select.

The extraction state additionally carries two observation counters
`pushes` / `pops` counting the scope-stack operations; they influence nothing.
-/

/-! ## JS string helpers (Node `path` module and string methods)

Implemented over `List Char` so that every helper reduces inside the kernel
(`String.splitOn` and friends recurse on byte positions and do not). -/

/-- Split a character list on a separator character (`JS split`, Lean
`String.splitOn` behaviour for a one-character separator). -/
def splitOnChar (sep : Char) : List Char → List (List Char)
  | [] => [[]]
  | c :: cs =>
    let r := splitOnChar sep cs
    if c = sep then [] :: r
    else match r with
      | [] => [[c]]
      | h :: t => (c :: h) :: t

/-- Substring containment on character lists. -/
def hasSubList (sub : List Char) : List Char → Bool
  | [] => sub.isEmpty
  | c :: cs => sub.isPrefixOf (c :: cs) || hasSubList sub cs

/-- JS `String.prototype.includes`: substring containment. -/
def jsIncludes (s sub : String) : Bool :=
  hasSubList sub.data s.data

/-- JS `String.prototype.split` with a one-character separator. -/
def jsSplit (s : String) (sep : Char) : List String :=
  (splitOnChar sep s.data).map String.mk

/-- Model of Node `path.basename` (no extension argument): the last
nonempty `/`-separated segment, or the path itself when there is none. -/
def jsBasename (p : String) : String :=
  match ((splitOnChar '/' p.data).filter (fun l => !l.isEmpty)).getLast? with
  | some s => String.mk s
  | none => p

/-- Model of Node `path.extname`: from the last `.` of the basename to the
end, empty for extensionless names and pure dotfiles. -/
def jsExtname (p : String) : String :=
  let b := (jsBasename p).data
  match splitOnChar '.' b with
  | [] => ""
  | [_] => ""
  | s :: rest =>
    if s.isEmpty && rest.length == 1 then ""
    else String.mk ('.' :: rest.getLastD [])

/-- Model of `path.basename(p, path.extname(p))` as used by `getNetwork`
when indexing file nodes by their extensionless base name. -/
def jsBasenameNoExt (p : String) : String :=
  let b := (jsBasename p).data
  let ext := (jsExtname p).data
  if b != ext && ext.isSuffixOf b then String.mk (b.take (b.length - ext.length))
  else String.mk b

/-- JS `arr[arr.length - 1]` where the stack holds strings and the value is
immediately interpolated into a row literal: `undefined` prints as
"undefined". -/
def jsLast (l : List String) : String := l.getLastD "undefined"

/-! ## Store rows (CozoDB relations `files`, `symbols`, `relations`) -/

/-- A row of the `files` relation: `path => language, last_modified`. -/
structure FileRow where
  path : String
  language : String
  last_modified : Nat
deriving DecidableEq, Repr

/-- A row of the `symbols` relation:
`id => file_path, name, kind, start_line, end_line`. -/
structure SymbolRow where
  id : String
  file_path : String
  name : String
  kind : String
  start_line : Nat
  end_line : Nat
deriving DecidableEq, Repr

/-- A row of the `relations` relation: `from_id, to_id, type => count`. -/
structure RelationRow where
  from_id : String
  to_id : String
  type : String
  count : Nat
deriving DecidableEq, Repr

/-- Key of a `relations` row (the Cozo key columns). -/
def relKey (r : RelationRow) : String × String × String :=
  (r.from_id, r.to_id, r.type)

/-! ## Keyed upsert (CozoDB `:put`) -/

/-- Upsert one row into an association list: replace the first row with the
same key in place, else append at the end. -/
def putRow {α : Type} {κ : Type} [DecidableEq κ] (key : α → κ) (row : α) :
    List α → List α
  | [] => [row]
  | r :: rs => if key r = key row then row :: rs else r :: putRow key row rs

/-- Upsert a batch of rows left to right (later rows win on key clashes),
modelling one `:put` of a collected row list. -/
def putRows {α : Type} {κ : Type} [DecidableEq κ] (key : α → κ)
    (rows store : List α) : List α :=
  rows.foldl (fun s r => putRow key r s) store

/-! ## Syntax trees (tree-sitter nodes) -/

mutual
/-- A tree-sitter node as `traverseAndCollect` observes it: its `type`, its
own `text`, the text of `childForFieldName('name')` and of
`childForFieldName('function')` when those children exist, its start and end
rows, and its child list. -/
inductive TSNode : Type where
  | mk (type : String) (text : String)
       (nameField : Option String) (funcField : Option String)
       (startRow : Nat) (endRow : Nat) (children : TSForest)
/-- The child list of a `TSNode`. -/
inductive TSForest : Type where
  | nil : TSForest
  | cons (hd : TSNode) (tl : TSForest) : TSForest
end

def TSNode.type : TSNode → String
  | .mk t _ _ _ _ _ _ => t

def TSNode.text : TSNode → String
  | .mk _ t _ _ _ _ _ => t

def TSNode.nameField : TSNode → Option String
  | .mk _ _ n _ _ _ _ => n

def TSNode.funcField : TSNode → Option String
  | .mk _ _ _ f _ _ _ => f

def TSNode.startRow : TSNode → Nat
  | .mk _ _ _ _ s _ _ => s

def TSNode.endRow : TSNode → Nat
  | .mk _ _ _ _ _ e _ => e

def TSNode.children : TSNode → TSForest
  | .mk _ _ _ _ _ _ c => c

/-- The child list as a plain list (used by the non-recursive import
branches, which scan `node.children` without descending further). -/
def TSForest.toList : TSForest → List TSNode
  | .nil => []
  | .cons hd tl => hd :: tl.toList

/-! ## Extraction (`traverseAndCollect` inside `processFile`) -/

/-- The mutable locals of one `processFile` call: the collected symbol rows,
the collected relation rows, and the scope stack (initially `[filePath]`),
plus two pure observation counters for scope pushes and pops. -/
structure ExtractState where
  symbolRows : List SymbolRow
  relations : List RelationRow
  scopeStack : List String
  pushes : Nat
  pops : Nat
deriving Repr

/-- `generateId`: `filePath:name`. -/
def generateId (filePath name : String) : String :=
  filePath ++ ":" ++ name

/-- Step 1 of the visit: on a named `function_definition` /
`class_definition`, emit a Symbol row and a `contains` relation from the
current top of the scope stack, and push the new id (returning `true` as the
`pushedScope` flag). -/
def defStep (filePath : String) (node : TSNode) (st : ExtractState) :
    ExtractState × Bool :=
  if node.type = "function_definition" ∨ node.type = "class_definition" then
    match node.nameField with
    | some name =>
      let kind := if jsIncludes node.type "class" then "class" else "function"
      let currentId := generateId filePath name
      let parentId := jsLast st.scopeStack
      ({ st with
          symbolRows := st.symbolRows ++
            [⟨currentId, filePath, name, kind, node.startRow, node.endRow⟩],
          relations := st.relations ++ [⟨parentId, currentId, "contains", 1⟩],
          scopeStack := st.scopeStack ++ [currentId],
          pushes := st.pushes + 1 }, true)
    | none => (st, false)
  else (st, false)

/-- The `forEach` body of the `import_statement` branch: emit one `import`
relation from the file per `dotted_name` child. -/
def importScanStep (filePath : String) (s : ExtractState) (c : TSNode) :
    ExtractState :=
  if c.type = "dotted_name" then
    { s with relations := s.relations ++ [⟨filePath, c.text, "import", 1⟩] }
  else s

/-- Step 2 of the visit: `import_statement` emits one `import` relation from
the file per `dotted_name` child; `import_from_statement` emits one for the
first `dotted_name` / `identifier` child, if any. -/
def importStep (filePath : String) (node : TSNode) (st : ExtractState) :
    ExtractState :=
  let st1 :=
    if node.type = "import_statement" then
      node.children.toList.foldl (importScanStep filePath) st
    else st
  if node.type = "import_from_statement" then
    match node.children.toList.find?
        (fun c => c.type = "dotted_name" ∨ c.type = "identifier") with
    | some modNode =>
      { st1 with relations := st1.relations ++
          [⟨filePath, modNode.text, "import", 1⟩] }
    | none => st1
  else st1

/-- Step 3 of the visit: on a `call_expression` / `call` node with a
`function` child, emit a `call` relation from the current top of the scope
stack to the raw callee text. -/
def callStep (node : TSNode) (st : ExtractState) : ExtractState :=
  if node.type = "call_expression" ∨ node.type = "call" then
    match node.funcField with
    | some funcText =>
      let callerId := jsLast st.scopeStack
      { st with relations := st.relations ++ [⟨callerId, funcText, "call", 1⟩] }
    | none => st
  else st

mutual
/-- `traverseAndCollect`: visit one node (symbol/contains step, import step,
call step), recurse into the children, then pop the scope iff this node
pushed one. -/
def traverseAndCollect (filePath : String) (node : TSNode)
    (st : ExtractState) : ExtractState :=
  match node with
  | .mk _ _ _ _ _ _ children =>
    let p := defStep filePath node st
    let st3 := callStep node (importStep filePath node p.1)
    let st5 := traverseForest filePath children st3
    if p.2 then
      { st5 with scopeStack := st5.scopeStack.dropLast, pops := st5.pops + 1 }
    else st5
/-- The child loop of `traverseAndCollect`. -/
def traverseForest (filePath : String) (ns : TSForest)
    (st : ExtractState) : ExtractState :=
  match ns with
  | .nil => st
  | .cons hd tl => traverseForest filePath tl (traverseAndCollect filePath hd st)
end

/-- One whole extraction pass over a parsed file: `traverseAndCollect` from
the root with empty row lists and scope stack `[filePath]`. -/
def extractFacts (filePath : String) (tree : TSNode) : ExtractState :=
  traverseAndCollect filePath tree ⟨[], [], [filePath], 0, 0⟩

/-! ## The network builder (`getNetwork`) -/

/-- One entry of the `nameToIds` index: a node id plus the file it lives in
(for symbols the owning `file_path`, for file nodes the path itself). -/
structure Candidate where
  id : String
  file : String
deriving DecidableEq, Repr

/-- One Cytoscape node datum. -/
structure NodeData where
  id : String
  kind : String
  label : String
deriving DecidableEq, Repr

/-- One Cytoscape edge datum. -/
structure EdgeData where
  id : String
  source : String
  target : String
  type : String
deriving DecidableEq, Repr

/-- The graph `getNetwork` returns. -/
structure Network where
  nodes : List NodeData
  edges : List EdgeData
deriving DecidableEq, Repr

/-- `rawTarget.split('.').pop() || rawTarget`: the last dot-separated
segment, falling back to the raw string when that segment is empty. -/
def targetNameOf (rawTarget : String) : String :=
  let t := (jsSplit rawTarget '.').getLastD rawTarget
  if t = "" then rawTarget else t

/-- `sourceId.includes(':') ? sourceId.split(':')[0] : sourceId`: the
caller's own file derived from a relation row's `from_id`. -/
def sourceFileOf (sourceId : String) : String :=
  if jsIncludes sourceId ":" then (jsSplit sourceId ':').headD sourceId
  else sourceId

/-- `addToIndex`: append a candidate to the (insertion-ordered) candidate
list of one name. -/
def addToIndex (idx : String → List Candidate) (name id file : String) :
    String → List Candidate :=
  fun n => if n = name then idx name ++ [⟨id, file⟩] else idx n

/-- The `nameToIds` index `getNetwork` builds: every file row indexed under
its extensionless base name, then every symbol row under its name — in the
iteration order of the two row lists. -/
def buildNameIndex (files : List FileRow) (symbols : List SymbolRow) :
    String → List Candidate :=
  let idx1 := files.foldl
    (fun idx f => addToIndex idx (jsBasenameNoExt f.path) f.path f.path)
    (fun _ => [])
  symbols.foldl (fun idx s => addToIndex idx s.name s.id s.file_path) idx1

/-- The edge-resolution loop body of `getNetwork`, for one relation row:
`contains` rows pass through iff both endpoints are valid node ids; `call`
rows resolve their target name with same-file preference; `import` rows
resolve to the first candidate; `call`/`import` emissions are deduplicated
on the composite edge id. -/
def resolveRelationRow (validNodeIds : List String)
    (nameToIds : String → List Candidate) (edges : List EdgeData)
    (row : RelationRow) : List EdgeData :=
  let sourceId := row.from_id
  let rawTarget := row.to_id
  if row.type = "contains" then
    if sourceId ∈ validNodeIds ∧ rawTarget ∈ validNodeIds then
      edges ++ [⟨sourceId ++ "-" ++ row.type ++ "-" ++ rawTarget,
                 sourceId, rawTarget, row.type⟩]
    else edges
  else if row.type = "call" then
    match nameToIds (targetNameOf rawTarget) with
    | [] => edges
    | c :: cs =>
      let sourceFile := sourceFileOf sourceId
      let bestMatch := (c :: cs).find? (fun cand => cand.file = sourceFile)
      let targetId := match bestMatch with
        | some b => b.id
        | none => c.id
      let edgeId := sourceId ++ "-call-" ++ targetId
      if edges.any (fun e => e.id = edgeId) then edges
      else edges ++ [⟨edgeId, sourceId, targetId, "call"⟩]
  else if row.type = "import" then
    match nameToIds (targetNameOf rawTarget) with
    | [] => edges
    | c :: _ =>
      let targetId := c.id
      let edgeId := sourceId ++ "-import-" ++ targetId
      if edges.any (fun e => e.id = edgeId) then edges
      else edges ++ [⟨edgeId, sourceId, targetId, "import"⟩]
  else edges

/-- The body of `getNetwork` as a pure function of the row lists its three
fixed datalog queries select: build the node list, the valid-node-id set and
the name index from the file and symbol rows, then resolve every relation
row in order. -/
def getNetworkCore (files : List FileRow) (symbols : List SymbolRow)
    (relations : List RelationRow) : Network :=
  let nodesF := files.map (fun f => NodeData.mk f.path "file" f.path)
  let nodesS := symbols.map (fun s => NodeData.mk s.id s.kind s.name)
  let validNodeIds := files.map (fun f => f.path) ++ symbols.map (fun s => s.id)
  let idx := buildNameIndex files symbols
  { nodes := nodesF ++ nodesS,
    edges := relations.foldl (resolveRelationRow validNodeIds idx) [] }

/-! ## The store and the `CodeGraph` object -/

/-- The CozoDB store contents: the three schema relations as association
lists (rows in a deterministic iteration order, keys unique in every state
the engine produces). -/
structure DBState where
  files : List FileRow
  symbols : List SymbolRow
  relations : List RelationRow
deriving DecidableEq, Repr

/-- Parsed result of a raw `db.run` (the shape `query` returns). -/
structure QueryResult where
  ok : Bool
  rows : List (List String)
deriving DecidableEq, Repr

/-- Which of the (up to) three `runCommand` upserts of one `processFile`
call succeed; a failing one throws inside the `try` block after applying
nothing (the store applies each `:put` atomically). -/
structure UpsertOracle where
  filesOk : Bool
  symbolsOk : Bool
  relationsOk : Bool
deriving DecidableEq, Repr

/-- The `CodeGraph` object state: the init flag, the store handle, the
loaded language parsers (langKey to parse function, `Except` for a parser
throw), and the black-box engine used by the raw `query` passthrough. -/
structure CodeGraph where
  isInitialized : Bool
  db : Option DBState
  languages : String → Option (String → Except String TSNode)
  engineRun : String → DBState → QueryResult × DBState

/-- `query`: returns `{ok: false, rows: []}` when the store is not ready,
else parses whatever the engine returns for the raw datalog string. -/
def CodeGraph.query (g : CodeGraph) (datalog : String) :
    QueryResult × CodeGraph :=
  if !g.isInitialized || g.db.isNone then ({ ok := false, rows := [] }, g)
  else
    match g.db with
    | some db =>
      let r := g.engineRun datalog db
      (r.1, { g with db := some r.2 })
    | none => ({ ok := false, rows := [] }, g)

/-- `getNetwork`: empty graph when the store is not ready, else the network
built from the current store contents (the three fixed queries select all
rows of `files`, `symbols` and `relations`). -/
def CodeGraph.getNetwork (g : CodeGraph) : Network × CodeGraph :=
  if !g.isInitialized || g.db.isNone then ({ nodes := [], edges := [] }, g)
  else
    match g.db with
    | some db => (getNetworkCore db.files db.symbols db.relations, g)
    | none => ({ nodes := [], edges := [] }, g)

/-- The tail of `processFile` after a successful symbols upsert (or with no
symbol rows): the relations upsert, guarded by `relations.length > 0`; a
throw is caught by `processFile`'s `try`, keeping the writes so far. -/
def relationsUpsertStep (g : CodeGraph) (oracle : UpsertOracle)
    (ex : ExtractState) (db2 : DBState) : CodeGraph :=
  if ex.relations.isEmpty then { g with db := some db2 }
  else if oracle.relationsOk then
    let db3 := { db2 with relations := putRows relKey ex.relations db2.relations }
    { g with db := some db3 }
  else { g with db := some db2 }

/-- `processFile`: no-op unless initialized, the extension is `.py` and the
Python language is loaded; parse, extract, then upsert files, symbols and
relations in that order, catching any throw (parse failure or failed
upsert) after the writes already applied. -/
def CodeGraph.processFile (g : CodeGraph) (oracle : UpsertOracle)
    (filePath content : String) (lastModified : Nat) : CodeGraph :=
  if !g.isInitialized || g.db.isNone then g
  else if jsExtname filePath = ".py" then
    match g.languages "python" with
    | none => g
    | some parse =>
      match g.db with
      | none => g
      | some db =>
        match parse content with
        | Except.error _ => g
        | Except.ok tree =>
          let ex := extractFacts filePath tree
          let fileRows : List FileRow := [⟨filePath, "python", lastModified⟩]
          if oracle.filesOk then
            let db1 := { db with
              files := putRows (fun f => f.path) fileRows db.files }
            if ex.symbolRows.isEmpty then relationsUpsertStep g oracle ex db1
            else if oracle.symbolsOk then
              let db2 := { db1 with
                symbols := putRows (fun s => s.id) ex.symbolRows db1.symbols }
              relationsUpsertStep g oracle ex db2
            else { g with db := some db1 }
          else g
  else g

/-! ## Lemmas about the keyed upsert -/

/-- The key column of every row of a store, in order. -/
def keysOf {α κ : Type} (key : α → κ) (s : List α) : List κ := s.map key

/-- First row of a store with a given key. -/
def lookupRow {α κ : Type} [DecidableEq κ] (key : α → κ) (k : κ)
    (s : List α) : Option α :=
  s.find? (fun a => decide (key a = k))

/-- Last batch row with a given key (the one a left-to-right upsert of the
batch leaves in the store). -/
def lookupLast {α κ : Type} [DecidableEq κ] (key : α → κ) (k : κ)
    (rows : List α) : Option α :=
  lookupRow key k rows.reverse

theorem lookupRow_nil {α κ : Type} [DecidableEq κ] (key : α → κ) (k : κ) :
    lookupRow key k ([] : List α) = none := rfl

theorem lookupRow_cons {α κ : Type} [DecidableEq κ] (key : α → κ) (k : κ)
    (a : α) (l : List α) :
    lookupRow key k (a :: l) =
      if key a = k then some a else lookupRow key k l := by
  by_cases h : key a = k <;> simp [lookupRow, List.find?, h]

theorem mem_putRow {α κ : Type} [DecidableEq κ] (key : α → κ) (row a : α)
    (s : List α) : a ∈ putRow key row s → a = row ∨ a ∈ s := by
  induction s with
  | nil => intro h; simpa [putRow] using h
  | cons r rs ih =>
    intro h
    by_cases hk : key r = key row
    · simp only [putRow, if_pos hk] at h
      rcases List.mem_cons.mp h with h | h
      · exact Or.inl h
      · exact Or.inr (List.mem_cons_of_mem _ h)
    · simp only [putRow, if_neg hk] at h
      rcases List.mem_cons.mp h with h | h
      · exact Or.inr (h ▸ List.mem_cons_self _ _)
      · rcases ih h with h1 | h1
        · exact Or.inl h1
        · exact Or.inr (List.mem_cons_of_mem _ h1)

theorem mem_putRows {α κ : Type} [DecidableEq κ] (key : α → κ)
    (rows : List α) : ∀ s a, a ∈ putRows key rows s → a ∈ rows ∨ a ∈ s := by
  induction rows with
  | nil => intro s a h; exact Or.inr h
  | cons r rs ih =>
    intro s a h
    rcases ih (putRow key r s) a h with h1 | h1
    · exact Or.inl (List.mem_cons_of_mem _ h1)
    · rcases mem_putRow key r a s h1 with h2 | h2
      · exact Or.inl (h2 ▸ List.mem_cons_self _ _)
      · exact Or.inr h2

theorem keysOf_putRow {α κ : Type} [DecidableEq κ] (key : α → κ) (row : α)
    (s : List α) :
    keysOf key (putRow key row s) =
      if key row ∈ keysOf key s then keysOf key s
      else keysOf key s ++ [key row] := by
  induction s with
  | nil => simp [putRow, keysOf]
  | cons r rs ih =>
    simp only [keysOf, List.map_cons] at ih ⊢
    by_cases hk : key r = key row
    · simp [putRow, if_pos hk, hk]
    · have hne : ¬ key row = key r := fun h => hk h.symm
      simp only [putRow, if_neg hk, List.map_cons, List.mem_cons, hne,
        false_or]
      by_cases hm : key row ∈ List.map key rs
      · rw [ih, if_pos hm, if_pos hm]
      · rw [ih, if_neg hm, if_neg hm]
        simp

theorem lookupRow_putRow {α κ : Type} [DecidableEq κ] (key : α → κ)
    (row : α) (k : κ) (s : List α) :
    lookupRow key k (putRow key row s) =
      if k = key row then some row else lookupRow key k s := by
  induction s with
  | nil =>
    simp only [putRow]
    rw [lookupRow_cons]
    by_cases hk : k = key row
    · rw [if_pos hk.symm, if_pos hk]
    · rw [if_neg (fun h => hk h.symm), if_neg hk]
  | cons r rs ih =>
    by_cases hk : key r = key row
    · simp only [putRow, if_pos hk]
      rw [lookupRow_cons, lookupRow_cons]
      by_cases h2 : k = key row
      · rw [if_pos h2.symm, if_pos h2]
      · have h3 : ¬ key row = k := fun h => h2 h.symm
        have h4 : ¬ key r = k := by
          intro h
          exact h3 (by rw [← hk]; exact h)
        rw [if_neg h3, if_neg h2, if_neg h4]
    · simp only [putRow, if_neg hk]
      rw [lookupRow_cons, lookupRow_cons]
      by_cases h3 : key r = k
      · have h4 : ¬ k = key row := by
          intro h
          exact hk (by rw [h3, h])
        rw [if_pos h3, if_neg h4, if_pos h3]
      · rw [if_neg h3, if_neg h3, ih]

theorem lookupRow_eq_none {α κ : Type} [DecidableEq κ] (key : α → κ)
    (k : κ) (s : List α) : k ∉ keysOf key s → lookupRow key k s = none := by
  induction s with
  | nil => intro _; rfl
  | cons r rs ih =>
    intro h
    simp only [keysOf, List.map_cons, List.mem_cons, not_or] at h
    rw [lookupRow_cons, if_neg (fun hh => h.1 hh.symm)]
    exact ih (by simpa [keysOf] using h.2)

theorem lookupRow_append {α κ : Type} [DecidableEq κ] (key : α → κ) (k : κ)
    (l1 l2 : List α) :
    lookupRow key k (l1 ++ l2) =
      match lookupRow key k l1 with
      | some x => some x
      | none => lookupRow key k l2 := by
  induction l1 with
  | nil => simp [lookupRow_nil]
  | cons a l ih =>
    rw [List.cons_append, lookupRow_cons, lookupRow_cons]
    by_cases h : key a = k
    · rw [if_pos h, if_pos h]
    · rw [if_neg h, if_neg h, ih]

theorem lookupLast_cons {α κ : Type} [DecidableEq κ] (key : α → κ) (k : κ)
    (r : α) (rs : List α) :
    lookupLast key k (r :: rs) =
      match lookupLast key k rs with
      | some x => some x
      | none => if key r = k then some r else none := by
  simp only [lookupLast, List.reverse_cons, lookupRow_append]
  cases h : lookupRow key k rs.reverse with
  | some x => rfl
  | none => rw [lookupRow_cons, lookupRow_nil]

theorem lookupRow_putRows {α κ : Type} [DecidableEq κ] (key : α → κ)
    (rows : List α) : ∀ (s : List α) (k : κ),
    lookupRow key k (putRows key rows s) =
      match lookupLast key k rows with
      | some x => some x
      | none => lookupRow key k s := by
  induction rows with
  | nil => intro s k; rfl
  | cons r rs ih =>
    intro s k
    rw [show putRows key (r :: rs) s = putRows key rs (putRow key r s) from rfl,
      ih, lookupLast_cons]
    cases h : lookupLast key k rs with
    | some x => rfl
    | none =>
      rw [lookupRow_putRow]
      by_cases h2 : key r = k
      · simp only [if_pos h2.symm, if_pos h2]
      · have hx : ¬ k = key r := fun hh => h2 hh.symm
        simp only [if_neg hx, if_neg h2]

theorem keysOf_subset_putRow {α κ : Type} [DecidableEq κ] (key : α → κ)
    (row : α) (s : List α) : keysOf key s ⊆ keysOf key (putRow key row s) := by
  rw [keysOf_putRow]
  by_cases h : key row ∈ keysOf key s
  · rw [if_pos h]
    exact fun x hx => hx
  · rw [if_neg h]
    exact List.subset_append_left _ _


theorem mem_keysOf_putRow {α κ : Type} [DecidableEq κ] (key : α → κ)
    (row : α) (s : List α) : key row ∈ keysOf key (putRow key row s) := by
  rw [keysOf_putRow]
  by_cases h : key row ∈ keysOf key s
  · rwa [if_pos h]
  · rw [if_neg h]
    exact List.mem_append_right _ (List.mem_singleton.mpr rfl)

theorem keysOf_subset_putRows {α κ : Type} [DecidableEq κ] (key : α → κ)
    (rows : List α) : ∀ s : List α,
    keysOf key s ⊆ keysOf key (putRows key rows s) := by
  induction rows with
  | nil => intro s; exact fun k hk => hk
  | cons r rs ih =>
    intro s
    exact fun k hk => ih (putRow key r s) (keysOf_subset_putRow key r s hk)

theorem mem_keysOf_putRows {α κ : Type} [DecidableEq κ] (key : α → κ)
    (rows : List α) : ∀ (s : List α) (r : α), r ∈ rows →
    key r ∈ keysOf key (putRows key rows s) := by
  induction rows with
  | nil => intro s r h; cases h
  | cons r0 rs ih =>
    intro s r h
    rcases List.mem_cons.mp h with h | h
    · subst h
      exact keysOf_subset_putRows key rs (putRow key r s)
        (mem_keysOf_putRow key r s)
    · exact ih (putRow key r0 s) r h

theorem keysOf_putRows_of_mem {α κ : Type} [DecidableEq κ] (key : α → κ)
    (rows : List α) : ∀ s : List α, (∀ r ∈ rows, key r ∈ keysOf key s) →
    keysOf key (putRows key rows s) = keysOf key s := by
  induction rows with
  | nil => intro s _; rfl
  | cons r rs ih =>
    intro s h
    have h1 : key r ∈ keysOf key s := h r (List.mem_cons_self _ _)
    have h2 : keysOf key (putRow key r s) = keysOf key s := by
      rw [keysOf_putRow, if_pos h1]
    rw [show putRows key (r :: rs) s = putRows key rs (putRow key r s) from rfl,
      ih (putRow key r s) (fun x hx => h2 ▸ h x (List.mem_cons_of_mem _ hx)), h2]

theorem nodup_keysOf_putRow {α κ : Type} [DecidableEq κ] (key : α → κ)
    (row : α) (s : List α) (h : (keysOf key s).Nodup) :
    (keysOf key (putRow key row s)).Nodup := by
  rw [keysOf_putRow]
  by_cases hm : key row ∈ keysOf key s
  · rwa [if_pos hm]
  · rw [if_neg hm]
    exact List.Nodup.append h (List.nodup_singleton _)
      (fun a ha hb => hm ((List.mem_singleton.mp hb) ▸ ha))

theorem nodup_keysOf_putRows {α κ : Type} [DecidableEq κ] (key : α → κ)
    (rows : List α) : ∀ s : List α, (keysOf key s).Nodup →
    (keysOf key (putRows key rows s)).Nodup := by
  induction rows with
  | nil => intro s h; exact h
  | cons r rs ih =>
    intro s h
    exact ih (putRow key r s) (nodup_keysOf_putRow key r s h)

theorem store_ext {α κ : Type} [DecidableEq κ] (key : α → κ) :
    ∀ t1 t2 : List α, keysOf key t1 = keysOf key t2 →
    (keysOf key t1).Nodup →
    (∀ k, lookupRow key k t1 = lookupRow key k t2) → t1 = t2 := by
  intro t1
  induction t1 with
  | nil =>
    intro t2 hkeys _ _
    cases t2 with
    | nil => rfl
    | cons b bs => exact absurd hkeys (by simp [keysOf])
  | cons a as ih =>
    intro t2 hkeys hnod hlook
    cases t2 with
    | nil => exact absurd hkeys (by simp [keysOf])
    | cons b bs =>
      simp only [keysOf, List.map_cons, List.cons.injEq] at hkeys
      simp only [keysOf, List.map_cons, List.nodup_cons] at hnod
      have hab : a = b := by
        have h1 := hlook (key a)
        rw [lookupRow_cons, if_pos rfl, lookupRow_cons, if_pos hkeys.1.symm]
          at h1
        exact Option.some.inj h1
      have htail : as = bs := by
        refine ih bs (by simpa [keysOf] using hkeys.2)
          (by simpa [keysOf] using hnod.2) (fun k => ?_)
        by_cases hk : k = key a
        · subst hk
          have hbs : key a ∉ List.map key bs := by
            rw [← hkeys.2]
            exact hnod.1
          rw [lookupRow_eq_none key _ as (by simpa [keysOf] using hnod.1),
            lookupRow_eq_none key _ bs (by simpa [keysOf] using hbs)]
        · have h1 := hlook k
          have hx1 : ¬ key a = k := fun hh => hk hh.symm
          have hx2 : ¬ key b = k := fun hh => by
            rw [← hkeys.1] at hh
            exact hk hh.symm
          rw [lookupRow_cons, lookupRow_cons, if_neg hx1, if_neg hx2] at h1
          exact h1
      rw [hab, htail]

/-- Replaying an upsert batch on a store that already incorporates it is the
identity: CozoDB `:put` is idempotent per batch. -/
theorem putRows_fixpoint {α κ : Type} [DecidableEq κ] (key : α → κ)
    (rows s : List α) (hnod : (keysOf key s).Nodup) :
    putRows key rows (putRows key rows s) = putRows key rows s := by
  have hall : ∀ r ∈ rows, key r ∈ keysOf key (putRows key rows s) :=
    fun r hr => mem_keysOf_putRows key rows s r hr
  have hkeys : keysOf key (putRows key rows (putRows key rows s)) =
      keysOf key (putRows key rows s) :=
    keysOf_putRows_of_mem key rows (putRows key rows s) hall
  have hnod2 : (keysOf key (putRows key rows s)).Nodup :=
    nodup_keysOf_putRows key rows s hnod
  refine store_ext key _ _ hkeys (hkeys ▸ hnod2) (fun k => ?_)
  rw [lookupRow_putRows, lookupRow_putRows]
  cases h : lookupLast key k rows with
  | some x => rfl
  | none => rfl

/-! ## Lemmas about the extraction steps -/

theorem defStep_false (fp : String) (node : TSNode) (st : ExtractState) :
    (defStep fp node st).2 = false → (defStep fp node st).1 = st := by
  intro h
  unfold defStep at h ⊢
  by_cases ht : node.type = "function_definition" ∨
      node.type = "class_definition"
  · rw [if_pos ht] at h ⊢
    cases hn : node.nameField with
    | some name => rw [hn] at h; exact absurd h (by simp)
    | none => rfl
  · rw [if_neg ht]

theorem defStep_true (fp : String) (node : TSNode) (st : ExtractState) :
    (defStep fp node st).2 = true → ∃ name, node.nameField = some name ∧
      (defStep fp node st).1 = { st with
        symbolRows := st.symbolRows ++ [⟨generateId fp name, fp, name,
          if jsIncludes node.type "class" then "class" else "function",
          node.startRow, node.endRow⟩],
        relations := st.relations ++
          [⟨jsLast st.scopeStack, generateId fp name, "contains", 1⟩],
        scopeStack := st.scopeStack ++ [generateId fp name],
        pushes := st.pushes + 1 } := by
  intro h
  unfold defStep at h ⊢
  by_cases ht : node.type = "function_definition" ∨
      node.type = "class_definition"
  · rw [if_pos ht] at h ⊢
    cases hn : node.nameField with
    | some name => exact ⟨name, rfl, rfl⟩
    | none => rw [hn] at h; exact absurd h (by simp)
  · rw [if_neg ht] at h; exact absurd h (by simp)

theorem importScan_spec (fp : String) (cs : List TSNode) :
    ∀ st : ExtractState, ∃ l,
      cs.foldl (importScanStep fp) st =
        { st with relations := st.relations ++ l } ∧
      ∀ r ∈ l, r.from_id = fp ∧ r.type = "import" ∧ r.count = 1 := by
  induction cs with
  | nil => intro st; exact ⟨[], by simp, by simp⟩
  | cons c cs ih =>
    intro st
    by_cases hc : c.type = "dotted_name"
    · obtain ⟨l, hl, hall⟩ :=
        ih { st with relations := st.relations ++ [⟨fp, c.text, "import", 1⟩] }
      refine ⟨⟨fp, c.text, "import", 1⟩ :: l, ?_, ?_⟩
      · rw [List.foldl_cons, show importScanStep fp st c =
          { st with relations := st.relations ++ [⟨fp, c.text, "import", 1⟩] }
          from by rw [importScanStep, if_pos hc], hl]
        simp
      · intro r hr
        rcases List.mem_cons.mp hr with hr | hr
        · subst hr; exact ⟨rfl, rfl, rfl⟩
        · exact hall r hr
    · obtain ⟨l, hl, hall⟩ := ih st
      refine ⟨l, ?_, hall⟩
      rw [List.foldl_cons, show importScanStep fp st c = st
        from by rw [importScanStep, if_neg hc], hl]

theorem importStep_spec (fp : String) (node : TSNode) (st : ExtractState) :
    ∃ l, importStep fp node st = { st with relations := st.relations ++ l } ∧
      ∀ r ∈ l, r.from_id = fp ∧ r.type = "import" ∧ r.count = 1 := by
  unfold importStep
  by_cases h1 : node.type = "import_statement"
  · rw [if_pos h1]
    obtain ⟨l1, hl1, hall1⟩ := importScan_spec fp node.children.toList st
    rw [hl1]
    by_cases h2 : node.type = "import_from_statement"
    · rw [if_pos h2]
      cases hf : node.children.toList.find?
          (fun c => decide (c.type = "dotted_name" ∨ c.type = "identifier")) with
      | some modNode =>
        refine ⟨l1 ++ [⟨fp, modNode.text, "import", 1⟩], by simp, ?_⟩
        intro r hr
        rcases List.mem_append.mp hr with hr | hr
        · exact hall1 r hr
        · rw [List.mem_singleton.mp hr]
          exact ⟨rfl, rfl, rfl⟩
      | none => exact ⟨l1, rfl, hall1⟩
    · rw [if_neg h2]
      exact ⟨l1, rfl, hall1⟩
  · rw [if_neg h1]
    by_cases h2 : node.type = "import_from_statement"
    · rw [if_pos h2]
      cases hf : node.children.toList.find?
          (fun c => decide (c.type = "dotted_name" ∨ c.type = "identifier")) with
      | some modNode =>
        refine ⟨[⟨fp, modNode.text, "import", 1⟩], rfl, ?_⟩
        intro r hr
        rw [List.mem_singleton.mp hr]
        exact ⟨rfl, rfl, rfl⟩
      | none => exact ⟨[], by simp, by simp⟩
    · rw [if_neg h2]
      exact ⟨[], by simp, by simp⟩

theorem callStep_spec (node : TSNode) (st : ExtractState) :
    ∃ l, callStep node st = { st with relations := st.relations ++ l } ∧
      ∀ r ∈ l, r.from_id = jsLast st.scopeStack ∧ r.type = "call" ∧
        r.count = 1 := by
  unfold callStep
  split
  · cases hf : node.funcField with
    | some funcText =>
      refine ⟨[⟨jsLast st.scopeStack, funcText, "call", 1⟩], rfl, ?_⟩
      intro r hr
      rw [List.mem_singleton.mp hr]
      exact ⟨rfl, rfl, rfl⟩
    | none => exact ⟨[], by simp, by simp⟩
  · exact ⟨[], by simp, by simp⟩

theorem importStep_fields (fp : String) (node : TSNode) (st : ExtractState) :
    (importStep fp node st).scopeStack = st.scopeStack ∧
    (importStep fp node st).pushes = st.pushes ∧
    (importStep fp node st).pops = st.pops ∧
    (importStep fp node st).symbolRows = st.symbolRows := by
  obtain ⟨l, hl, _⟩ := importStep_spec fp node st
  rw [hl]
  exact ⟨rfl, rfl, rfl, rfl⟩

theorem callStep_fields (node : TSNode) (st : ExtractState) :
    (callStep node st).scopeStack = st.scopeStack ∧
    (callStep node st).pushes = st.pushes ∧
    (callStep node st).pops = st.pops ∧
    (callStep node st).symbolRows = st.symbolRows := by
  obtain ⟨l, hl, _⟩ := callStep_spec node st
  rw [hl]
  exact ⟨rfl, rfl, rfl, rfl⟩

mutual
/-- The scope stack is restored after every node visit, and the push and pop
counters advance by the same amount. -/
theorem traverse_stack (fp : String) (node : TSNode) (st : ExtractState) :
    (traverseAndCollect fp node st).scopeStack = st.scopeStack ∧
    (traverseAndCollect fp node st).pushes + st.pops =
      (traverseAndCollect fp node st).pops + st.pushes := by
  cases node with
  | mk t tx nf ff sr er children =>
    simp only [traverseAndCollect]
    generalize hG : TSNode.mk t tx nf ff sr er children = n
    cases hp : (defStep fp n st).2 with
    | false =>
      have hd := defStep_false fp n st hp
      rw [hd]
      have hif := importStep_fields fp n st
      have hcf := callStep_fields n (importStep fp n st)
      have ihf := traverseForest_stack fp children (callStep n (importStep fp n st))
      simp only [Bool.false_eq_true, if_false]
      refine ⟨?_, ?_⟩
      · rw [ihf.1, hcf.1, hif.1]
      · have e1 := hcf.2.1
        have e2 := hcf.2.2.1
        have e3 := hif.2.1
        have e4 := hif.2.2.1
        have e5 := ihf.2
        omega
    | true =>
      obtain ⟨name, hn, hd⟩ := defStep_true fp n st hp
      rw [hd]
      simp only [if_true]
      have hif := importStep_fields fp n ((defStep fp n st).1)
      have hcf := callStep_fields n (importStep fp n ((defStep fp n st).1))
      have ihf := traverseForest_stack fp children
        (callStep n (importStep fp n ((defStep fp n st).1)))
      rw [hd] at hif hcf ihf
      refine ⟨?_, ?_⟩
      · rw [ihf.1, hcf.1, hif.1]
        exact List.dropLast_concat
      · have e1 := hcf.2.1
        have e2 := hcf.2.2.1
        have e3 := hif.2.1
        have e4 := hif.2.2.1
        have e5 := ihf.2
        have e6 : ({ st with
          symbolRows := st.symbolRows ++ [⟨generateId fp name, fp, name,
            if jsIncludes n.type "class" then "class" else "function",
            n.startRow, n.endRow⟩],
          relations := st.relations ++
            [⟨jsLast st.scopeStack, generateId fp name, "contains", 1⟩],
          scopeStack := st.scopeStack ++ [generateId fp name],
          pushes := st.pushes + 1 } : ExtractState).pushes = st.pushes + 1 := rfl
        have e7 : ({ st with
          symbolRows := st.symbolRows ++ [⟨generateId fp name, fp, name,
            if jsIncludes n.type "class" then "class" else "function",
            n.startRow, n.endRow⟩],
          relations := st.relations ++
            [⟨jsLast st.scopeStack, generateId fp name, "contains", 1⟩],
          scopeStack := st.scopeStack ++ [generateId fp name],
          pushes := st.pushes + 1 } : ExtractState).pops = st.pops := rfl
        omega
/-- Forest version of `traverse_stack`. -/
theorem traverseForest_stack (fp : String) (ns : TSForest)
    (st : ExtractState) :
    (traverseForest fp ns st).scopeStack = st.scopeStack ∧
    (traverseForest fp ns st).pushes + st.pops =
      (traverseForest fp ns st).pops + st.pushes := by
  cases ns with
  | nil => exact ⟨rfl, Nat.add_comm st.pushes st.pops⟩
  | cons hd tl =>
    obtain ⟨h1a, h1b⟩ := traverse_stack fp hd st
    obtain ⟨h2a, h2b⟩ := traverseForest_stack fp tl (traverseAndCollect fp hd st)
    simp only [traverseForest]
    refine ⟨?_, ?_⟩
    · rw [h2a, h1a]
    · omega
end

/-! ## Extraction invariants -/

/-- Ids of the symbol rows collected so far. -/
def idsOf (st : ExtractState) : List String := st.symbolRows.map SymbolRow.id

/-- The traversal invariant: the scope stack is nonempty and every entry is
the file path or a collected symbol id; every collected `contains` relation
runs from the file path or a collected symbol id to a collected symbol id;
every collected `call` relation starts at the file path or a collected
symbol id. -/
def ScopeInv (fp : String) (st : ExtractState) : Prop :=
  st.scopeStack ≠ [] ∧
  (∀ s ∈ st.scopeStack, s = fp ∨ s ∈ idsOf st) ∧
  (∀ r ∈ st.relations, r.type = "contains" →
      (r.from_id = fp ∨ r.from_id ∈ idsOf st) ∧ r.to_id ∈ idsOf st) ∧
  (∀ r ∈ st.relations, r.type = "call" →
      r.from_id = fp ∨ r.from_id ∈ idsOf st)

theorem jsLast_mem : ∀ l : List String, l ≠ [] → jsLast l ∈ l := by
  intro l
  induction l with
  | nil => intro h; exact absurd rfl h
  | cons a t ih =>
    intro _
    cases t with
    | nil => simp [jsLast]
    | cons b t2 =>
      have h2 := ih (by simp)
      have he : jsLast (a :: b :: t2) = jsLast (b :: t2) := by
        simp [jsLast]
      rw [he]
      exact List.mem_cons_of_mem _ h2

theorem scopeInv_append_rels (fp : String) (st : ExtractState)
    (l : List RelationRow)
    (hty : ∀ r ∈ l, r.type = "import" ∨
      (r.type = "call" ∧ (r.from_id = fp ∨ r.from_id ∈ idsOf st))) :
    ScopeInv fp st → ScopeInv fp { st with relations := st.relations ++ l } := by
  rintro ⟨h1, h2, h3, h4⟩
  refine ⟨h1, h2, ?_, ?_⟩
  · intro r hr hc
    rcases List.mem_append.mp hr with hr | hr
    · exact h3 r hr hc
    · rcases hty r hr with h | h
      · rw [h] at hc; exact absurd hc (by decide)
      · rw [h.1] at hc; exact absurd hc (by decide)
  · intro r hr hcall
    rcases List.mem_append.mp hr with hr | hr
    · exact h4 r hr hcall
    · rcases hty r hr with h | h
      · rw [h] at hcall; exact absurd hcall (by decide)
      · exact h.2

theorem popState_symbolRows (st : ExtractState) :
    ({ st with scopeStack := st.scopeStack.dropLast, pops := st.pops + 1 }
      : ExtractState).symbolRows = st.symbolRows := rfl

theorem popState_relations (st : ExtractState) :
    ({ st with scopeStack := st.scopeStack.dropLast, pops := st.pops + 1 }
      : ExtractState).relations = st.relations := rfl

theorem popState_scopeStack (st : ExtractState) :
    ({ st with scopeStack := st.scopeStack.dropLast, pops := st.pops + 1 }
      : ExtractState).scopeStack = st.scopeStack.dropLast := rfl

theorem popState_idsOf (st : ExtractState) :
    idsOf ({ st with scopeStack := st.scopeStack.dropLast, pops := st.pops + 1 }
      : ExtractState) = idsOf st := rfl

theorem scopeInv_defStep (fp : String) (node : TSNode) (st : ExtractState) :
    ScopeInv fp st → ScopeInv fp (defStep fp node st).1 := by
  intro hInv
  cases hp : (defStep fp node st).2 with
  | false => rw [defStep_false fp node st hp]; exact hInv
  | true =>
    obtain ⟨name, hn, hd⟩ := defStep_true fp node st hp
    rw [hd]
    obtain ⟨h1, h2, h3, h4⟩ := hInv
    have hparent : jsLast st.scopeStack = fp ∨
        jsLast st.scopeStack ∈ idsOf st :=
      h2 (jsLast st.scopeStack) (jsLast_mem st.scopeStack h1)
    refine ⟨by simp, ?_, ?_, ?_⟩
    · intro s hs
      simp only [idsOf, List.map_append] at hs ⊢
      rcases List.mem_append.mp hs with hs | hs
      · rcases h2 s hs with h | h
        · exact Or.inl h
        · exact Or.inr (List.mem_append_left _ h)
      · rw [List.mem_singleton.mp hs]
        exact Or.inr (List.mem_append_right _ (by simp))
    · intro r hr hc
      simp only [idsOf, List.map_append]
      rcases List.mem_append.mp hr with hr | hr
      · obtain ⟨ha, hb⟩ := h3 r hr hc
        refine ⟨?_, List.mem_append_left _ hb⟩
        rcases ha with h | h
        · exact Or.inl h
        · exact Or.inr (List.mem_append_left _ h)
      · rw [List.mem_singleton.mp hr]
        refine ⟨?_, List.mem_append_right _ (by simp)⟩
        rcases hparent with h | h
        · exact Or.inl h
        · exact Or.inr (List.mem_append_left _ h)
    · intro r hr hc
      simp only [idsOf, List.map_append]
      rcases List.mem_append.mp hr with hr | hr
      · rcases h4 r hr hc with h | h
        · exact Or.inl h
        · exact Or.inr (List.mem_append_left _ h)
      · rw [List.mem_singleton.mp hr] at hc
        exact absurd hc (by decide : ¬("contains" : String) = "call")

mutual
/-- Traversal preservation: symbol rows only grow, the scope invariant is
preserved, and all collected relation rows keep `count = 1`. -/
theorem traverse_pres (fp : String) (node : TSNode) (st : ExtractState) :
    (∃ l, (traverseAndCollect fp node st).symbolRows = st.symbolRows ++ l) ∧
    (ScopeInv fp st → ScopeInv fp (traverseAndCollect fp node st)) ∧
    ((∀ r ∈ st.relations, r.count = 1) →
      ∀ r ∈ (traverseAndCollect fp node st).relations, r.count = 1) := by
  cases node with
  | mk t tx nf ff sr er children =>
    simp only [traverseAndCollect]
    generalize hG : TSNode.mk t tx nf ff sr er children = n
    obtain ⟨li, hli, hliP⟩ := importStep_spec fp n (defStep fp n st).1
    obtain ⟨lc, hlc, hlcP⟩ :=
      callStep_spec n (importStep fp n (defStep fp n st).1)
    obtain ⟨ihS, ihI, ihC⟩ := traverseForest_pres fp children
      (callStep n (importStep fp n (defStep fp n st).1))
    have hsf := (traverseForest_stack fp children
      (callStep n (importStep fp n (defStep fp n st).1))).1
    have hInvD := scopeInv_defStep fp n st
    have hInv2 : ScopeInv fp st →
        ScopeInv fp (importStep fp n (defStep fp n st).1) := by
      intro hInv
      rw [hli]
      exact scopeInv_append_rels fp _ li
        (fun r hr => Or.inl (hliP r hr).2.1) (hInvD hInv)
    have hInv3 : ScopeInv fp st →
        ScopeInv fp (callStep n (importStep fp n (defStep fp n st).1)) := by
      intro hInv
      rw [hlc]
      refine scopeInv_append_rels fp _ lc (fun r hr => ?_) (hInv2 hInv)
      obtain ⟨hfrom, hcall, _⟩ := hlcP r hr
      refine Or.inr ⟨hcall, ?_⟩
      rw [hfrom]
      exact (hInv2 hInv).2.1 _ (jsLast_mem _ (hInv2 hInv).1)
    have hInv5 : ScopeInv fp st → ScopeInv fp (traverseForest fp children
        (callStep n (importStep fp n (defStep fp n st).1))) :=
      fun hInv => ihI (hInv3 hInv)
    have hCnt3 : (∀ r ∈ st.relations, r.count = 1) →
        (∀ r ∈ (defStep fp n st).1.relations, r.count = 1) →
        ∀ r ∈ (callStep n (importStep fp n (defStep fp n st).1)).relations,
          r.count = 1 := by
      intro _ hcntD r hr
      rw [hlc] at hr
      rcases List.mem_append.mp hr with hr | hr
      · rw [hli] at hr
        rcases List.mem_append.mp hr with hr | hr
        · exact hcntD r hr
        · exact (hliP r hr).2.2
      · exact (hlcP r hr).2.2
    cases hp : (defStep fp n st).2 with
    | false =>
      have hDeq := defStep_false fp n st hp
      simp only [Bool.false_eq_true, if_false]
      refine ⟨?_, ?_, ?_⟩
      · obtain ⟨l5, hl5⟩ := ihS
        refine ⟨l5, ?_⟩
        rw [hl5, hlc, hli, hDeq]
      · exact hInv5
      · intro hcnt
        exact ihC (hCnt3 hcnt (by rw [hDeq]; exact hcnt))
    | true =>
      obtain ⟨name, hn, hd⟩ := defStep_true fp n st hp
      have hsymD : (defStep fp n st).1.symbolRows = st.symbolRows ++
          [⟨generateId fp name, fp, name,
            if jsIncludes n.type "class" then "class" else "function",
            n.startRow, n.endRow⟩] := by rw [hd]
      have hsD : (defStep fp n st).1.scopeStack =
          st.scopeStack ++ [generateId fp name] := by rw [hd]
      have hrelD : (defStep fp n st).1.relations = st.relations ++
          [⟨jsLast st.scopeStack, generateId fp name, "contains", 1⟩] := by
        rw [hd]
      simp only [if_true]
      refine ⟨?_, ?_, ?_⟩
      · obtain ⟨l5, hl5⟩ := ihS
        refine ⟨⟨generateId fp name, fp, name,
          if jsIncludes n.type "class" then "class" else "function",
          n.startRow, n.endRow⟩ :: l5, ?_⟩
        rw [popState_symbolRows, hl5, hlc, hli, hsymD]
        simp
      · intro hInv
        obtain ⟨g1, g2, g3, g4⟩ := hInv5 hInv
        have hstack5 : (traverseForest fp children
            (callStep n (importStep fp n (defStep fp n st).1))).scopeStack =
            st.scopeStack ++ [generateId fp name] := by
          rw [hsf, hlc, hli, hsD]
        refine ⟨?_, ?_, ?_, ?_⟩
        · rw [popState_scopeStack, hstack5, List.dropLast_concat]
          exact hInv.1
        · intro s hs
          rw [popState_scopeStack, hstack5, List.dropLast_concat] at hs
          rw [popState_idsOf]
          exact g2 s (by rw [hstack5]; exact List.mem_append_left _ hs)
        · intro r hr hc
          rw [popState_relations] at hr
          rw [popState_idsOf]
          exact g3 r hr hc
        · intro r hr hc
          rw [popState_relations] at hr
          rw [popState_idsOf]
          exact g4 r hr hc
      · intro hcnt
        intro r hr
        rw [popState_relations] at hr
        refine ihC (hCnt3 hcnt ?_) r hr
        rw [hrelD]
        intro r2 hr2
        rcases List.mem_append.mp hr2 with h | h
        · exact hcnt r2 h
        · rw [List.mem_singleton.mp h]
/-- Forest version of `traverse_pres`. -/
theorem traverseForest_pres (fp : String) (ns : TSForest)
    (st : ExtractState) :
    (∃ l, (traverseForest fp ns st).symbolRows = st.symbolRows ++ l) ∧
    (ScopeInv fp st → ScopeInv fp (traverseForest fp ns st)) ∧
    ((∀ r ∈ st.relations, r.count = 1) →
      ∀ r ∈ (traverseForest fp ns st).relations, r.count = 1) := by
  cases ns with
  | nil => exact ⟨⟨[], by simp [traverseForest]⟩, fun h => h, fun h => h⟩
  | cons hd tl =>
    obtain ⟨⟨l1, hs1⟩, hi1, hc1⟩ := traverse_pres fp hd st
    obtain ⟨⟨l2, hs2⟩, hi2, hc2⟩ :=
      traverseForest_pres fp tl (traverseAndCollect fp hd st)
    simp only [traverseForest]
    refine ⟨⟨l1 ++ l2, ?_⟩, fun h => hi2 (hi1 h), fun h => hc2 (hc1 h)⟩
    rw [hs2, hs1, List.append_assoc]
end

/-! ## Lemmas about the network builder -/

theorem mem_addToIndex (idx : String → List Candidate)
    (name id file n : String) (c : Candidate)
    (h : c ∈ addToIndex idx name id file n) :
    c ∈ idx n ∨ c = ⟨id, file⟩ := by
  unfold addToIndex at h
  by_cases hn : n = name
  · rw [if_pos hn] at h
    rcases List.mem_append.mp h with h | h
    · rw [hn]
      exact Or.inl h
    · exact Or.inr (List.mem_singleton.mp h)
  · rw [if_neg hn] at h
    exact Or.inl h

theorem foldl_addToIndex_symbols (V : List String) (symbols : List SymbolRow) :
    ∀ idx : String → List Candidate,
      (∀ (n : String) (c : Candidate), c ∈ idx n → c.id ∈ V) →
      (∀ s ∈ symbols, s.id ∈ V) →
      ∀ (n : String) (c : Candidate),
        c ∈ (symbols.foldl
          (fun idx s => addToIndex idx s.name s.id s.file_path) idx) n →
        c.id ∈ V := by
  induction symbols with
  | nil => intro idx h _ n c hc; exact h n c hc
  | cons s ss ih =>
    intro idx h hall n c hc
    refine ih _ ?_ (fun x hx => hall x (List.mem_cons_of_mem _ hx)) n c hc
    intro n2 c2 hc2
    rcases mem_addToIndex idx s.name s.id s.file_path n2 c2 hc2 with h2 | h2
    · exact h n2 c2 h2
    · rw [h2]
      exact hall s (List.mem_cons_self _ _)

theorem foldl_addToIndex_files (V : List String) (files : List FileRow) :
    ∀ idx : String → List Candidate,
      (∀ (n : String) (c : Candidate), c ∈ idx n → c.id ∈ V) →
      (∀ f ∈ files, f.path ∈ V) →
      ∀ (n : String) (c : Candidate),
        c ∈ (files.foldl
          (fun idx f =>
            addToIndex idx (jsBasenameNoExt f.path) f.path f.path) idx) n →
        c.id ∈ V := by
  induction files with
  | nil => intro idx h _ n c hc; exact h n c hc
  | cons f fs ih =>
    intro idx h hall n c hc
    refine ih _ ?_ (fun x hx => hall x (List.mem_cons_of_mem _ hx)) n c hc
    intro n2 c2 hc2
    rcases mem_addToIndex idx (jsBasenameNoExt f.path) f.path f.path n2 c2 hc2
      with h2 | h2
    · exact h n2 c2 h2
    · rw [h2]
      exact hall f (List.mem_cons_self _ _)

/-- Every candidate the name index yields is a node id (a file path or a
symbol id) of the same row lists. -/
theorem buildNameIndex_mem (files : List FileRow) (symbols : List SymbolRow)
    (n : String) (c : Candidate) (hc : c ∈ buildNameIndex files symbols n) :
    c.id ∈ files.map FileRow.path ++ symbols.map SymbolRow.id := by
  unfold buildNameIndex at hc
  refine foldl_addToIndex_symbols _ symbols _ ?_ ?_ n c hc
  · intro n2 c2 hc2
    refine foldl_addToIndex_files _ files _ ?_ ?_ n2 c2 hc2
    · intro n3 c3 hc3
      exact absurd hc3 (List.not_mem_nil c3)
    · intro f hf
      exact List.mem_append_left _ (List.mem_map_of_mem FileRow.path hf)
  · intro s hs
    exact List.mem_append_right _ (List.mem_map_of_mem SymbolRow.id hs)

/-- How one resolved edge relates to the relation row it came from:
`contains` passes through with both endpoints checked, `call` picks the
same-file candidate else the first one, `import` always picks the first
candidate. -/
def ResolvedEdgeChar (validNodeIds : List String)
    (idx : String → List Candidate) (row : RelationRow)
    (e : EdgeData) : Prop :=
  e.source = row.from_id ∧
  ((row.type = "contains" ∧ e.type = "contains" ∧ e.target = row.to_id ∧
      row.from_id ∈ validNodeIds ∧ row.to_id ∈ validNodeIds) ∨
   (row.type = "call" ∧ e.type = "call" ∧
      ∃ c cs, idx (targetNameOf row.to_id) = c :: cs ∧
        e.target = (match (c :: cs).find?
            (fun cand => cand.file = sourceFileOf row.from_id) with
          | some b => b.id
          | none => c.id)) ∨
   (row.type = "import" ∧ e.type = "import" ∧
      ∃ c cs, idx (targetNameOf row.to_id) = c :: cs ∧ e.target = c.id))

theorem resolveRelationRow_spec (validNodeIds : List String)
    (idx : String → List Candidate) (edges : List EdgeData)
    (row : RelationRow) :
    resolveRelationRow validNodeIds idx edges row = edges ∨
    ∃ e, resolveRelationRow validNodeIds idx edges row = edges ++ [e] ∧
      ResolvedEdgeChar validNodeIds idx row e := by
  simp only [resolveRelationRow]
  by_cases h1 : row.type = "contains"
  · rw [if_pos h1]
    by_cases h2 : row.from_id ∈ validNodeIds ∧ row.to_id ∈ validNodeIds
    · rw [if_pos h2]
      exact Or.inr ⟨_, rfl, rfl, Or.inl ⟨h1, h1, rfl, h2.1, h2.2⟩⟩
    · rw [if_neg h2]
      exact Or.inl rfl
  · rw [if_neg h1]
    by_cases h2 : row.type = "call"
    · rw [if_pos h2]
      cases hidx : idx (targetNameOf row.to_id) with
      | nil => exact Or.inl rfl
      | cons c cs =>
        dsimp only
        by_cases h3 : edges.any (fun e => e.id = row.from_id ++ "-call-" ++
            (match (c :: cs).find?
              (fun cand => cand.file = sourceFileOf row.from_id) with
            | some b => b.id
            | none => c.id)) = true
        · rw [if_pos h3]
          exact Or.inl rfl
        · rw [if_neg h3]
          exact Or.inr ⟨_, rfl, rfl,
            Or.inr (Or.inl ⟨h2, rfl, c, cs, hidx, rfl⟩)⟩
    · rw [if_neg h2]
      by_cases h4 : row.type = "import"
      · rw [if_pos h4]
        cases hidx : idx (targetNameOf row.to_id) with
        | nil => exact Or.inl rfl
        | cons c cs =>
          dsimp only
          by_cases h3 : edges.any
              (fun e => e.id = row.from_id ++ "-import-" ++ c.id) = true
          · rw [if_pos h3]
            exact Or.inl rfl
          · rw [if_neg h3]
            exact Or.inr ⟨_, rfl, rfl,
              Or.inr (Or.inr ⟨h4, rfl, c, cs, hidx, rfl⟩)⟩
      · rw [if_neg h4]
        exact Or.inl rfl

theorem resolveRelationRow_unresolved (validNodeIds : List String)
    (idx : String → List Candidate) (edges : List EdgeData)
    (row : RelationRow)
    (hty : row.type = "call" ∨ row.type = "import")
    (hcand : idx (targetNameOf row.to_id) = []) :
    resolveRelationRow validNodeIds idx edges row = edges := by
  simp only [resolveRelationRow]
  rcases hty with h | h
  · rw [h, if_neg (by decide : ¬("call" : String) = "contains"),
      if_pos (rfl : ("call" : String) = "call"), hcand]
  · rw [h, if_neg (by decide : ¬("import" : String) = "contains"),
      if_neg (by decide : ¬("import" : String) = "call"),
      if_pos (rfl : ("import" : String) = "import"), hcand]

theorem foldl_resolve_mem (validNodeIds : List String)
    (idx : String → List Candidate) :
    ∀ (rows : List RelationRow) (acc : List EdgeData) (e : EdgeData),
      e ∈ rows.foldl (resolveRelationRow validNodeIds idx) acc →
      e ∈ acc ∨ ∃ row ∈ rows, ResolvedEdgeChar validNodeIds idx row e := by
  intro rows
  induction rows with
  | nil => intro acc e he; exact Or.inl he
  | cons row rs ih =>
    intro acc e he
    rw [List.foldl_cons] at he
    rcases ih _ e he with h | h
    · rcases resolveRelationRow_spec validNodeIds idx acc row with
        hs | ⟨e2, hs, hchar⟩
      · rw [hs] at h
        exact Or.inl h
      · rw [hs] at h
        rcases List.mem_append.mp h with h | h
        · exact Or.inl h
        · rw [List.mem_singleton.mp h]
          exact Or.inr ⟨row, List.mem_cons_self _ _, hchar⟩
    · obtain ⟨r2, hr2, hc2⟩ := h
      exact Or.inr ⟨r2, List.mem_cons_of_mem _ hr2, hc2⟩

/-- Provenance: every edge `getNetworkCore` emits is characterized by some
relation row of the input. -/
theorem getNetworkCore_edges_char (files : List FileRow)
    (symbols : List SymbolRow) (relations : List RelationRow) (e : EdgeData)
    (he : e ∈ (getNetworkCore files symbols relations).edges) :
    ∃ row ∈ relations, ResolvedEdgeChar
      (files.map FileRow.path ++ symbols.map SymbolRow.id)
      (buildNameIndex files symbols) row e := by
  simp only [getNetworkCore] at he
  rcases foldl_resolve_mem _ _ relations [] e he with h | h
  · exact absurd h (List.not_mem_nil e)
  · exact h

/-! ## `processFile` characterizations -/

theorem processFile_ok_db (g : CodeGraph) (db : DBState)
    (parse : String → Except String TSNode) (tree : TSNode)
    (fp content : String) (t : Nat)
    (hinit : g.isInitialized = true) (hdb : g.db = some db)
    (hext : jsExtname fp = ".py")
    (hlang : g.languages "python" = some parse)
    (hparse : parse content = Except.ok tree) :
    g.processFile ⟨true, true, true⟩ fp content t = { g with db := some {
      files := putRows (fun f => f.path) [⟨fp, "python", t⟩] db.files,
      symbols :=
        putRows (fun s => s.id) (extractFacts fp tree).symbolRows db.symbols,
      relations :=
        putRows relKey (extractFacts fp tree).relations db.relations } } := by
  have hg : (!g.isInitialized || g.db.isNone) = false := by
    rw [hinit, hdb]
    rfl
  unfold CodeGraph.processFile
  rw [hg]
  simp only [Bool.false_eq_true, if_false, if_pos hext]
  rw [hdb, hlang]
  dsimp only
  rw [hparse]
  dsimp only
  by_cases hs : (extractFacts fp tree).symbolRows.isEmpty
  · rw [if_pos hs]
    unfold relationsUpsertStep
    have hs2 : (extractFacts fp tree).symbolRows = [] :=
      List.isEmpty_iff.mp hs
    by_cases hr : (extractFacts fp tree).relations.isEmpty
    · rw [if_pos hr]
      have hr2 : (extractFacts fp tree).relations = [] :=
        List.isEmpty_iff.mp hr
      rw [hs2, hr2]
      rfl
    · rw [if_neg hr]
      simp only [if_true]
      rw [hs2]
      rfl
  · rw [if_neg hs]
    simp only [if_true]
    unfold relationsUpsertStep
    by_cases hr : (extractFacts fp tree).relations.isEmpty
    · rw [if_pos hr]
      have hr2 : (extractFacts fp tree).relations = [] :=
        List.isEmpty_iff.mp hr
      rw [hr2]
      rfl
    · rw [if_neg hr]
      simp only [if_true]

theorem processFile_symbolsFail_db (g : CodeGraph) (db : DBState)
    (parse : String → Except String TSNode) (tree : TSNode)
    (fp content : String) (t : Nat)
    (hinit : g.isInitialized = true) (hdb : g.db = some db)
    (hext : jsExtname fp = ".py")
    (hlang : g.languages "python" = some parse)
    (hparse : parse content = Except.ok tree)
    (hsym : ¬(extractFacts fp tree).symbolRows.isEmpty) :
    g.processFile ⟨true, false, true⟩ fp content t = { g with db := some {
      db with
      files := putRows (fun f => f.path) [⟨fp, "python", t⟩] db.files } } := by
  have hg : (!g.isInitialized || g.db.isNone) = false := by
    rw [hinit, hdb]
    rfl
  unfold CodeGraph.processFile
  rw [hg]
  simp only [Bool.false_eq_true, if_false, if_pos hext]
  rw [hdb, hlang]
  dsimp only
  rw [hparse]
  dsimp only
  rw [if_neg hsym]
  rfl

theorem processFile_relationsFail_db (g : CodeGraph) (db : DBState)
    (parse : String → Except String TSNode) (tree : TSNode)
    (fp content : String) (t : Nat)
    (hinit : g.isInitialized = true) (hdb : g.db = some db)
    (hext : jsExtname fp = ".py")
    (hlang : g.languages "python" = some parse)
    (hparse : parse content = Except.ok tree)
    (hsym : ¬(extractFacts fp tree).symbolRows.isEmpty)
    (hrel : ¬(extractFacts fp tree).relations.isEmpty) :
    g.processFile ⟨true, true, false⟩ fp content t = { g with db := some {
      db with
      files := putRows (fun f => f.path) [⟨fp, "python", t⟩] db.files,
      symbols :=
        putRows (fun s => s.id) (extractFacts fp tree).symbolRows db.symbols
      } } := by
  have hg : (!g.isInitialized || g.db.isNone) = false := by
    rw [hinit, hdb]
    rfl
  unfold CodeGraph.processFile relationsUpsertStep
  rw [hg]
  simp only [Bool.false_eq_true, if_false, if_pos hext]
  rw [hdb, hlang]
  dsimp only
  rw [hparse]
  dsimp only
  rw [if_neg hsym, if_neg hrel]
  rfl

/-! ## Test fixtures: a small Python file
`import os` / `def main(): helper()` / `def helper(): pass`. -/

def wImportNode : TSNode :=
  .mk "import_statement" "import os" none none 0 0
    (.cons (.mk "import" "import" none none 0 0 .nil)
      (.cons (.mk "dotted_name" "os" none none 0 0 .nil) .nil))

def wCallNode : TSNode := .mk "call" "helper()" none (some "helper") 2 2 .nil

def wMainDef : TSNode :=
  .mk "function_definition" "def main(): helper()" (some "main") none 1 3
    (.cons wCallNode .nil)

def wHelperDef : TSNode :=
  .mk "function_definition" "def helper(): pass" (some "helper") none 5 6 .nil

def wRoot : TSNode :=
  .mk "module" "" none none 0 7
    (.cons wImportNode (.cons wMainDef (.cons wHelperDef .nil)))

def wFiles : List FileRow := [⟨"a.py", "python", 5⟩]

def wSymbols : List SymbolRow := (extractFacts "a.py" wRoot).symbolRows

def wRelations : List RelationRow := (extractFacts "a.py" wRoot).relations

def wParse : String → Except String TSNode := fun _ => Except.ok wRoot

def wParseErr : String → Except String TSNode := fun _ => Except.error "boom"

def wEngine : String → DBState → QueryResult × DBState :=
  fun _ db => (⟨true, []⟩, db)

def wGraph : CodeGraph :=
  { isInitialized := true, db := some ⟨[], [], []⟩,
    languages := fun k => if k = "python" then some wParse else none,
    engineRun := wEngine }

def wGraphUninit : CodeGraph := { wGraph with isInitialized := false }

def wGraphErr : CodeGraph :=
  { wGraph with
    languages := fun k => if k = "python" then some wParseErr else none }

/-- The invariant holds at the start of a pass: empty row lists and the
scope stack `[filePath]`. -/
theorem scopeInv_init (fp : String) : ScopeInv fp ⟨[], [], [fp], 0, 0⟩ := by
  refine ⟨by simp, ?_, ?_, ?_⟩
  · intro s hs
    exact Or.inl (List.mem_singleton.mp hs)
  · intro r hr
    exact absurd hr (List.not_mem_nil r)
  · intro r hr
    exact absurd hr (List.not_mem_nil r)

/-! ## Claim theorems -/

/-- C4: the extraction traversal performs exactly one scope-stack pop per
push (the push and pop counters advance by the same amount and the stack is
restored after every visit), the scope stack equals `[filePath]` when the
traversal of the root completes, and every `call` relation's `fromId` is
the file path or the id of a symbol emitted in the same pass (the innermost
enclosing named definition). -/
theorem claim_scope_balance (fp : String) (tree : TSNode)
    (st : ExtractState) :
    ((traverseAndCollect fp tree st).scopeStack = st.scopeStack ∧
     (traverseAndCollect fp tree st).pushes + st.pops =
       (traverseAndCollect fp tree st).pops + st.pushes) ∧
    (extractFacts fp tree).scopeStack = [fp] ∧
    (∀ r ∈ (extractFacts fp tree).relations, r.type = "call" →
      r.from_id = fp ∨
      r.from_id ∈ (extractFacts fp tree).symbolRows.map SymbolRow.id) := by
  refine ⟨traverse_stack fp tree st,
    (traverse_stack fp tree ⟨[], [], [fp], 0, 0⟩).1, ?_⟩
  have h := (traverse_pres fp tree ⟨[], [], [fp], 0, 0⟩).2.1 (scopeInv_init fp)
  exact fun r hr hc => h.2.2.2 r hr hc

theorem claim_scope_balance_witness :
    (extractFacts "a.py" wRoot).scopeStack = ["a.py"] ∧
    ((⟨"a.py:main", "helper", "call", 1⟩ : RelationRow) ∈
        (extractFacts "a.py" wRoot).relations ∧
      ((⟨"a.py:main", "helper", "call", 1⟩ : RelationRow).from_id = "a.py" ∨
        (⟨"a.py:main", "helper", "call", 1⟩ : RelationRow).from_id ∈
          (extractFacts "a.py" wRoot).symbolRows.map SymbolRow.id)) :=
  ⟨(claim_scope_balance "a.py" wRoot ⟨[], [], ["a.py"], 0, 0⟩).2.1,
   ⟨by decide,
    (claim_scope_balance "a.py" wRoot ⟨[], [], ["a.py"], 0, 0⟩).2.2 _
      (by decide) (by decide)⟩⟩

/-- C5: every `contains` relation emitted in one indexing pass runs from
the file path or a symbol emitted in that same pass to a symbol emitted in
that same pass. -/
theorem claim_contains_endpoints (fp : String) (tree : TSNode) :
    ∀ r ∈ (extractFacts fp tree).relations, r.type = "contains" →
      (r.from_id = fp ∨
        r.from_id ∈ (extractFacts fp tree).symbolRows.map SymbolRow.id) ∧
      r.to_id ∈ (extractFacts fp tree).symbolRows.map SymbolRow.id := by
  have h := (traverse_pres fp tree ⟨[], [], [fp], 0, 0⟩).2.1 (scopeInv_init fp)
  exact fun r hr hc => h.2.2.1 r hr hc

theorem claim_contains_endpoints_witness :
    ((⟨"a.py", "a.py:main", "contains", 1⟩ : RelationRow) ∈
      (extractFacts "a.py" wRoot).relations) ∧
    (((⟨"a.py", "a.py:main", "contains", 1⟩ : RelationRow).from_id = "a.py" ∨
      (⟨"a.py", "a.py:main", "contains", 1⟩ : RelationRow).from_id ∈
        (extractFacts "a.py" wRoot).symbolRows.map SymbolRow.id) ∧
      (⟨"a.py", "a.py:main", "contains", 1⟩ : RelationRow).to_id ∈
        (extractFacts "a.py" wRoot).symbolRows.map SymbolRow.id) :=
  ⟨by decide,
   claim_contains_endpoints "a.py" wRoot _ (by decide) (by decide)⟩

/-- C9: every relation row the extractor writes carries the literal count
value 1; after upserting one pass's relation batch, every store row is
either a pre-existing row or has count 1 (so repeated calls from the same
scope to the same raw target leave a single keyed row with count 1, not an
accumulated total), and key uniqueness of the store is preserved. -/
theorem claim_count_literal_one (fp : String) (tree : TSNode)
    (store : List RelationRow) :
    (∀ r ∈ (extractFacts fp tree).relations, r.count = 1) ∧
    (∀ r ∈ putRows relKey (extractFacts fp tree).relations store,
      r ∈ store ∨ r.count = 1) ∧
    ((keysOf relKey store).Nodup →
      (keysOf relKey
        (putRows relKey (extractFacts fp tree).relations store)).Nodup) := by
  have hext : ∀ r ∈ (extractFacts fp tree).relations, r.count = 1 :=
    (traverse_pres fp tree ⟨[], [], [fp], 0, 0⟩).2.2
      (fun r hr => absurd hr (List.not_mem_nil r))
  refine ⟨hext, ?_, fun h => nodup_keysOf_putRows relKey _ store h⟩
  intro r hr
  rcases mem_putRows relKey _ store r hr with h | h
  · exact Or.inr (hext r h)
  · exact Or.inl h

theorem claim_count_literal_one_witness :
    ((⟨"a.py:main", "helper", "call", 1⟩ : RelationRow) ∈
      putRows relKey (extractFacts "a.py" wRoot).relations []) ∧
    ((⟨"a.py:main", "helper", "call", 1⟩ : RelationRow) ∈
        ([] : List RelationRow) ∨
      (⟨"a.py:main", "helper", "call", 1⟩ : RelationRow).count = 1) ∧
    (keysOf relKey
      (putRows relKey (extractFacts "a.py" wRoot).relations [])).Nodup :=
  ⟨by decide,
   (claim_count_literal_one "a.py" wRoot []).2.1 _ (by decide),
   (claim_count_literal_one "a.py" wRoot []).2.2 (by decide)⟩

/-- C1 counterexample: an `import` relation row from `z.py` whose target
name `helper` has a candidate in the caller's own file (`z.py:helper`) is
resolved to the first candidate `b.py:helper` instead — the same-file
preference is not applied to import rows. -/
theorem claim_resolution_preference_counterexample :
    ((getNetworkCore
        [⟨"z.py", "python", 0⟩, ⟨"b.py", "python", 0⟩]
        [⟨"b.py:helper", "b.py", "helper", "function", 0, 1⟩,
         ⟨"z.py:helper", "z.py", "helper", "function", 0, 1⟩]
        [⟨"z.py", "helper", "import", 1⟩]).edges.map EdgeData.target =
      ["b.py:helper"]) ∧
    ((buildNameIndex
        [⟨"z.py", "python", 0⟩, ⟨"b.py", "python", 0⟩]
        [⟨"b.py:helper", "b.py", "helper", "function", 0, 1⟩,
         ⟨"z.py:helper", "z.py", "helper", "function", 0, 1⟩]
        (targetNameOf "helper")).find?
      (fun cand => cand.file = sourceFileOf "z.py") =
      some ⟨"z.py:helper", "z.py"⟩) := by decide

/-- C1 amended: for every `call` edge `getNetwork` emits, the target is the
first candidate located in the caller's own file when one exists, else the
first candidate in index-insertion order; for every `import` edge, the
target is always the first candidate in index-insertion order (no same-file
preference). -/
theorem claim_resolution_preference_amended (files : List FileRow)
    (symbols : List SymbolRow) (relations : List RelationRow) (e : EdgeData)
    (he : e ∈ (getNetworkCore files symbols relations).edges) :
    (e.type = "call" → ∃ row ∈ relations, row.type = "call" ∧
      e.source = row.from_id ∧
      ∃ c cs, buildNameIndex files symbols (targetNameOf row.to_id) =
          c :: cs ∧
        e.target = (match (c :: cs).find?
            (fun cand => cand.file = sourceFileOf row.from_id) with
          | some b => b.id
          | none => c.id)) ∧
    (e.type = "import" → ∃ row ∈ relations, row.type = "import" ∧
      e.source = row.from_id ∧
      ∃ c cs, buildNameIndex files symbols (targetNameOf row.to_id) =
          c :: cs ∧
        e.target = c.id) := by
  obtain ⟨row, hrow, hsrc, hchar⟩ :=
    getNetworkCore_edges_char files symbols relations e he
  constructor
  · intro hty
    rcases hchar with h | h | h
    · rw [h.2.1] at hty
      exact absurd hty (by decide)
    · exact ⟨row, hrow, h.1, hsrc, h.2.2⟩
    · rw [h.2.1] at hty
      exact absurd hty (by decide)
  · intro hty
    rcases hchar with h | h | h
    · rw [h.2.1] at hty
      exact absurd hty (by decide)
    · rw [h.2.1] at hty
      exact absurd hty (by decide)
    · exact ⟨row, hrow, h.1, hsrc, h.2.2⟩

theorem claim_resolution_preference_amended_witness :
    ((⟨"a.py:main-call-a.py:helper", "a.py:main", "a.py:helper", "call"⟩
        : EdgeData) ∈ (getNetworkCore wFiles wSymbols wRelations).edges) ∧
    (((⟨"a.py:main-call-a.py:helper", "a.py:main", "a.py:helper", "call"⟩
        : EdgeData).type = "call" → ∃ row ∈ wRelations, row.type = "call" ∧
      (⟨"a.py:main-call-a.py:helper", "a.py:main", "a.py:helper", "call"⟩
        : EdgeData).source = row.from_id ∧
      ∃ c cs, buildNameIndex wFiles wSymbols (targetNameOf row.to_id) =
          c :: cs ∧
        (⟨"a.py:main-call-a.py:helper", "a.py:main", "a.py:helper", "call"⟩
          : EdgeData).target = (match (c :: cs).find?
            (fun cand => cand.file = sourceFileOf row.from_id) with
          | some b => b.id
          | none => c.id)) ∧
    ((⟨"a.py:main-call-a.py:helper", "a.py:main", "a.py:helper", "call"⟩
        : EdgeData).type = "import" → ∃ row ∈ wRelations,
      row.type = "import" ∧
      (⟨"a.py:main-call-a.py:helper", "a.py:main", "a.py:helper", "call"⟩
        : EdgeData).source = row.from_id ∧
      ∃ c cs, buildNameIndex wFiles wSymbols (targetNameOf row.to_id) =
          c :: cs ∧
        (⟨"a.py:main-call-a.py:helper", "a.py:main", "a.py:helper", "call"⟩
          : EdgeData).target = c.id)) :=
  ⟨by decide,
   claim_resolution_preference_amended wFiles wSymbols wRelations _
     (by decide)⟩

/-- C2 counterexample: a `call` relation row whose `fromId` is not any node
id still produces an edge (with its dangling source), instead of being
dropped: the node set is `["a.py:foo"]` but the emitted edge's source is
`ghost:x`. -/
theorem claim_edge_endpoints_counterexample :
    ((getNetworkCore [] [⟨"a.py:foo", "a.py", "foo", "function", 0, 1⟩]
        [⟨"ghost:x", "foo", "call", 1⟩]).edges.map EdgeData.source =
      ["ghost:x"]) ∧
    ("ghost:x" ∉ (getNetworkCore []
        [⟨"a.py:foo", "a.py", "foo", "function", 0, 1⟩]
        [⟨"ghost:x", "foo", "call", 1⟩]).nodes.map NodeData.id) := by decide

/-- C2 amended: every edge `getNetwork` emits has its target in the node-id
set (resolution only yields indexed ids, and `contains` targets are checked
explicitly), and a `contains` edge additionally has its source in the
node-id set; the source of a `call`/`import` edge is emitted unchecked. -/
theorem claim_edge_endpoints_amended (files : List FileRow)
    (symbols : List SymbolRow) (relations : List RelationRow) (e : EdgeData)
    (he : e ∈ (getNetworkCore files symbols relations).edges) :
    e.target ∈ files.map FileRow.path ++ symbols.map SymbolRow.id ∧
    (e.type = "contains" →
      e.source ∈ files.map FileRow.path ++ symbols.map SymbolRow.id) := by
  obtain ⟨row, hrow, hsrc, hchar⟩ :=
    getNetworkCore_edges_char files symbols relations e he
  constructor
  · rcases hchar with h | h | h
    · rw [h.2.2.1]
      exact h.2.2.2.2
    · obtain ⟨c, cs, hidx, htgt⟩ := h.2.2
      cases hfind : (c :: cs).find?
          (fun cand => cand.file = sourceFileOf row.from_id) with
      | some b =>
        rw [hfind] at htgt
        dsimp only at htgt
        rw [htgt]
        exact buildNameIndex_mem files symbols _ b
          (hidx ▸ List.mem_of_find?_eq_some hfind)
      | none =>
        rw [hfind] at htgt
        dsimp only at htgt
        rw [htgt]
        exact buildNameIndex_mem files symbols _ c
          (hidx ▸ List.mem_cons_self c cs)
    · obtain ⟨c, cs, hidx, htgt⟩ := h.2.2
      rw [htgt]
      exact buildNameIndex_mem files symbols _ c
        (hidx ▸ List.mem_cons_self c cs)
  · intro hc
    rcases hchar with h | h | h
    · rw [hsrc]
      exact h.2.2.2.1
    · rw [h.2.1] at hc
      exact absurd hc (by decide)
    · rw [h.2.1] at hc
      exact absurd hc (by decide)

theorem claim_edge_endpoints_amended_witness :
    ((⟨"a.py-contains-a.py:main", "a.py", "a.py:main", "contains"⟩
        : EdgeData) ∈ (getNetworkCore wFiles wSymbols wRelations).edges) ∧
    ((⟨"a.py-contains-a.py:main", "a.py", "a.py:main", "contains"⟩
        : EdgeData).target ∈
      wFiles.map FileRow.path ++ wSymbols.map SymbolRow.id ∧
    ((⟨"a.py-contains-a.py:main", "a.py", "a.py:main", "contains"⟩
        : EdgeData).type = "contains" →
      (⟨"a.py-contains-a.py:main", "a.py", "a.py:main", "contains"⟩
        : EdgeData).source ∈
        wFiles.map FileRow.path ++ wSymbols.map SymbolRow.id)) :=
  ⟨by decide,
   claim_edge_endpoints_amended wFiles wSymbols wRelations _ (by decide)⟩

/-- C6: a `call` or `import` relation row whose derived target name has no
candidate in the name index contributes nothing to `getNetwork`'s output
(removing it from the relation rows leaves the network unchanged), and no
error is raised. -/
theorem claim_unresolved_dropped (files : List FileRow)
    (symbols : List SymbolRow) (rel1 rel2 : List RelationRow)
    (row : RelationRow)
    (hty : row.type = "call" ∨ row.type = "import")
    (hcand : buildNameIndex files symbols (targetNameOf row.to_id) = []) :
    getNetworkCore files symbols (rel1 ++ row :: rel2) =
      getNetworkCore files symbols (rel1 ++ rel2) := by
  simp only [getNetworkCore]
  rw [List.foldl_append, List.foldl_append, List.foldl_cons,
    resolveRelationRow_unresolved _ _ _ row hty hcand]

theorem claim_unresolved_dropped_witness :
    getNetworkCore wFiles wSymbols
        ([] ++ (⟨"a.py", "os", "import", 1⟩ : RelationRow) :: []) =
      getNetworkCore wFiles wSymbols ([] ++ []) :=
  claim_unresolved_dropped wFiles wSymbols [] []
    ⟨"a.py", "os", "import", 1⟩ (Or.inr (by decide)) (by decide)

/-- C7: against an uninitialized store, `query` returns
`{ok: false, rows: []}` and `getNetwork` returns the empty graph, each
without raising and leaving the object state unchanged. -/
theorem claim_uninitialized_reads (g : CodeGraph) (datalog : String)
    (h : g.isInitialized = false) :
    g.query datalog = ({ ok := false, rows := [] }, g) ∧
    g.getNetwork = ({ nodes := [], edges := [] }, g) := by
  unfold CodeGraph.query CodeGraph.getNetwork
  rw [h]
  exact ⟨rfl, rfl⟩

theorem claim_uninitialized_reads_witness :
    wGraphUninit.query "?[p] := *files[p, l, m]" =
      ({ ok := false, rows := [] }, wGraphUninit) ∧
    wGraphUninit.getNetwork = ({ nodes := [], edges := [] }, wGraphUninit) :=
  claim_uninitialized_reads wGraphUninit "?[p] := *files[p, l, m]" rfl

/-- C8: `processFile` silently no-ops, leaving the store unchanged, when
the store is not initialized, when the file's extension maps to no
supported language (only `.py` is supported), or when the Python parser is
not loaded; and a parse error inside the per-file try block is caught,
returning normally with the store unchanged. -/
theorem claim_processFile_noop (g : CodeGraph) (oracle : UpsertOracle)
    (fp content : String) (t : Nat) :
    (g.isInitialized = false → g.processFile oracle fp content t = g) ∧
    (jsExtname fp ≠ ".py" → g.processFile oracle fp content t = g) ∧
    (g.languages "python" = none → g.processFile oracle fp content t = g) ∧
    (∀ parse err, g.languages "python" = some parse →
      parse content = Except.error err →
      g.processFile oracle fp content t = g) := by
  refine ⟨?_, ?_, ?_, ?_⟩
  · intro h
    unfold CodeGraph.processFile
    rw [h]
    rfl
  · intro h
    unfold CodeGraph.processFile
    cases hg : (!g.isInitialized || g.db.isNone) with
    | true => rfl
    | false =>
      simp only [Bool.false_eq_true, if_false]
      rw [if_neg h]
  · intro h
    unfold CodeGraph.processFile
    cases hg : (!g.isInitialized || g.db.isNone) with
    | true => rfl
    | false =>
      simp only [Bool.false_eq_true, if_false]
      by_cases hext : jsExtname fp = ".py"
      · rw [if_pos hext, h]
      · rw [if_neg hext]
  · intro parse err hlang hparse
    unfold CodeGraph.processFile
    cases hg : (!g.isInitialized || g.db.isNone) with
    | true => rfl
    | false =>
      simp only [Bool.false_eq_true, if_false]
      by_cases hext : jsExtname fp = ".py"
      · rw [if_pos hext, hlang]
        dsimp only
        cases hdb : g.db with
        | none => rfl
        | some db =>
          dsimp only
          rw [hparse]
      · rw [if_neg hext]

theorem claim_processFile_noop_witness :
    (wGraphUninit.processFile ⟨true, true, true⟩ "a.py" "x" 0 =
      wGraphUninit) ∧
    (wGraph.processFile ⟨true, true, true⟩ "a.txt" "x" 0 = wGraph) ∧
    (wGraph.processFile ⟨true, true, true⟩ "a.rs" "x" 0 = wGraph) ∧
    (wGraphErr.processFile ⟨true, true, true⟩ "a.py" "x" 0 = wGraphErr) :=
  ⟨(claim_processFile_noop wGraphUninit ⟨true, true, true⟩ "a.py" "x" 0).1
     rfl,
   (claim_processFile_noop wGraph ⟨true, true, true⟩ "a.txt" "x" 0).2.1
     (by decide),
   (claim_processFile_noop wGraph ⟨true, true, true⟩ "a.rs" "x" 0).2.1
     (by decide),
   (claim_processFile_noop wGraphErr ⟨true, true, true⟩ "a.py" "x" 0).2.2.2
     wParseErr "boom" rfl rfl⟩

/-- C3: processing the same file path and content a second time (with all
upserts succeeding, the extension supported, the parser loaded and the
parse succeeding, over a store with unique keys) leaves the store's symbol
and relation row sets identical to the state after the first call. -/
theorem claim_processFile_idempotent (g : CodeGraph) (db : DBState)
    (parse : String → Except String TSNode) (tree : TSNode)
    (fp content : String) (t1 t2 : Nat)
    (hinit : g.isInitialized = true) (hdb : g.db = some db)
    (hext : jsExtname fp = ".py")
    (hlang : g.languages "python" = some parse)
    (hparse : parse content = Except.ok tree)
    (hnodS : (keysOf (fun s : SymbolRow => s.id) db.symbols).Nodup)
    (hnodR : (keysOf relKey db.relations).Nodup) :
    ((g.processFile ⟨true, true, true⟩ fp content t1).processFile
        ⟨true, true, true⟩ fp content t2).db.map DBState.symbols =
      (g.processFile ⟨true, true, true⟩ fp content t1).db.map
        DBState.symbols ∧
    ((g.processFile ⟨true, true, true⟩ fp content t1).processFile
        ⟨true, true, true⟩ fp content t2).db.map DBState.relations =
      (g.processFile ⟨true, true, true⟩ fp content t1).db.map
        DBState.relations := by
  rw [processFile_ok_db g db parse tree fp content t1 hinit hdb hext hlang
    hparse]
  rw [processFile_ok_db
    { g with db := some {
        files := putRows (fun f => f.path) [⟨fp, "python", t1⟩] db.files,
        symbols := putRows (fun s => s.id) (extractFacts fp tree).symbolRows
          db.symbols,
        relations := putRows relKey (extractFacts fp tree).relations
          db.relations } }
    { files := putRows (fun f => f.path) [⟨fp, "python", t1⟩] db.files,
      symbols := putRows (fun s => s.id) (extractFacts fp tree).symbolRows
        db.symbols,
      relations := putRows relKey (extractFacts fp tree).relations
        db.relations }
    parse tree fp content t2 hinit rfl hext hlang hparse]
  constructor
  · simp only [Option.map_some]
    rw [show (putRows (fun s : SymbolRow => s.id)
        (extractFacts fp tree).symbolRows
        (putRows (fun s : SymbolRow => s.id)
          (extractFacts fp tree).symbolRows db.symbols)) =
      putRows (fun s : SymbolRow => s.id)
        (extractFacts fp tree).symbolRows db.symbols from
      putRows_fixpoint _ _ _ hnodS]
    rfl
  · simp only [Option.map_some]
    rw [show (putRows relKey (extractFacts fp tree).relations
        (putRows relKey (extractFacts fp tree).relations db.relations)) =
      putRows relKey (extractFacts fp tree).relations db.relations from
      putRows_fixpoint _ _ _ hnodR]
    rfl

theorem claim_processFile_idempotent_witness :
    ((wGraph.processFile ⟨true, true, true⟩ "a.py" "src" 1).processFile
        ⟨true, true, true⟩ "a.py" "src" 2).db.map DBState.symbols =
      (wGraph.processFile ⟨true, true, true⟩ "a.py" "src" 1).db.map
        DBState.symbols ∧
    ((wGraph.processFile ⟨true, true, true⟩ "a.py" "src" 1).processFile
        ⟨true, true, true⟩ "a.py" "src" 2).db.map DBState.relations =
      (wGraph.processFile ⟨true, true, true⟩ "a.py" "src" 1).db.map
        DBState.relations :=
  claim_processFile_idempotent wGraph ⟨[], [], []⟩ wParse wRoot "a.py" "src"
    1 2 rfl rfl (by decide) rfl rfl (by decide) (by decide)

/-- C10: one `processFile` call runs three separate sequential upserts
(files, then symbols, then relations), so per-file indexing is not atomic:
if the symbols upsert fails, the file row written before it remains and the
call returns normally; if the relations upsert fails, the file and symbol
rows written before it remain and the call returns normally. -/
theorem claim_processFile_not_atomic (g : CodeGraph) (db : DBState)
    (parse : String → Except String TSNode) (tree : TSNode)
    (fp content : String) (t : Nat)
    (hinit : g.isInitialized = true) (hdb : g.db = some db)
    (hext : jsExtname fp = ".py")
    (hlang : g.languages "python" = some parse)
    (hparse : parse content = Except.ok tree)
    (hsym : ¬(extractFacts fp tree).symbolRows.isEmpty)
    (hrel : ¬(extractFacts fp tree).relations.isEmpty) :
    (g.processFile ⟨true, false, true⟩ fp content t).db = some {
      db with
      files := putRows (fun f => f.path) [⟨fp, "python", t⟩] db.files } ∧
    (g.processFile ⟨true, true, false⟩ fp content t).db = some {
      db with
      files := putRows (fun f => f.path) [⟨fp, "python", t⟩] db.files,
      symbols :=
        putRows (fun s => s.id) (extractFacts fp tree).symbolRows
          db.symbols } := by
  constructor
  · rw [processFile_symbolsFail_db g db parse tree fp content t hinit hdb
      hext hlang hparse hsym]
  · rw [processFile_relationsFail_db g db parse tree fp content t hinit hdb
      hext hlang hparse hsym hrel]

theorem claim_processFile_not_atomic_witness :
    (wGraph.processFile ⟨true, false, true⟩ "a.py" "src" 7).db = some {
      files := putRows (fun f => f.path)
        [⟨"a.py", "python", 7⟩] ([] : List FileRow),
      symbols := [], relations := [] } ∧
    (wGraph.processFile ⟨true, true, false⟩ "a.py" "src" 7).db = some {
      files := putRows (fun f => f.path)
        [⟨"a.py", "python", 7⟩] ([] : List FileRow),
      symbols := putRows (fun s => s.id)
        (extractFacts "a.py" wRoot).symbolRows [],
      relations := [] } :=
  claim_processFile_not_atomic wGraph ⟨[], [], []⟩ wParse wRoot "a.py" "src"
    7 rfl rfl (by decide) rfl rfl (by decide) (by decide)
